import Mathlib

/-! Verification of the API key generator utility (`API_Key_Generator.c`).

The C program is embedded shallowly:

* a file's byte content is a `List Char`;
* `fgets` with the 1024-byte buffer is `takeLine (MAX_LINE_LENGTH - 1)`: it
  consumes at most 1023 characters, stopping right after a newline;
* the read loop of `add_key_to_properties` is `readLines`;
* the scan for the `api.security.keys=` line is `key_line_index`; the C loop
  overwrites the index at every match, so it records the last matching line;
* `snprintf` into the 1024-byte buffer is `List.take (MAX_LINE_LENGTH - 1)`;
* the two `fopen` calls and the `open` of the entropy source are modelled by
  boolean success flags; `written = none` means the file was never rewritten.
-/

set_option maxRecDepth 8000

/-- The constant `KEY_LENGTH` of the C source: length of the generated API key. -/
def KEY_LENGTH : Nat := 32

/-- The constant `MAX_LINE_LENGTH` of the C source: size of the `fgets`/`snprintf` buffers. -/
def MAX_LINE_LENGTH : Nat := 1024

/-- The character set used for generating random API keys (the C `charset`
array without its terminating NUL). -/
def charset : List Char :=
  ("ABCDEFGHIJKLMNOPQRSTUVWXYZabcdefghijklmnopqrstuvwxyz0123456789").toList

/-- The literal compared against by `strncmp(line, "api.security.keys=", 18)`. -/
def keysHeader : List Char := ("api.security.keys=").toList

/-- The function `generate_api_key` (lines 40-42): each random byte `b` becomes
`charset[b % (sizeof(charset) - 1)]`, and `sizeof(charset) - 1 = 62 =
charset.length`. -/
def generate_api_key (buffer : List Nat) : List Char :=
  buffer.map (fun b => charset.getD (b % charset.length) 'A')

/-- The function `generate_api_key` together with its error handling (lines 28-37): the C
code exits with status 1 only when `/dev/urandom` cannot be opened.  The
return value of `read` is ignored, so the `rdOk` flag cannot influence the
result; `buffer` is whatever the 32-byte buffer holds after the `read` call. -/
def generate_api_key_run (openOk : Bool) (rdOk : Bool) (buffer : List Nat) :
    Option (List Char) :=
  if openOk then some (generate_api_key buffer) else none

/-- One `fgets(line, n+1, file)` call on the remaining bytes `cs`: consume at
most `n` characters, stopping right after a newline.  Returns the chunk read
and the remaining bytes. -/
def takeLine : Nat → List Char → List Char × List Char
  | 0, cs => ([], cs)
  | _ + 1, [] => ([], [])
  | n + 1, c :: cs =>
    if c = '\n' then ([c], cs)
    else (c :: (takeLine n cs).1, (takeLine n cs).2)

/-- Lines 77-80 of the C source: remove a single trailing newline if present. -/
def chomp (l : List Char) : List Char :=
  if l.getLast? = some '\n' then l.dropLast else l

/-- The `while (fgets(...))` loop, with explicit fuel (each iteration consumes
at least one character, so `cs.length` fuel suffices). -/
def readLinesAux : Nat → List Char → List (List Char)
  | 0, _ => []
  | _ + 1, [] => []
  | fuel + 1, c :: cs =>
    chomp (takeLine (MAX_LINE_LENGTH - 1) (c :: cs)).1
      :: readLinesAux fuel (takeLine (MAX_LINE_LENGTH - 1) (c :: cs)).2

/-- The stored lines after the read loop of `add_key_to_properties`. -/
def readLines (cs : List Char) : List (List Char) :=
  readLinesAux cs.length cs

/-- The test `strncmp(line, "api.security.keys=", 18) == 0`. -/
def startsWithKeys (l : List Char) : Bool := l.take 18 == keysHeader

/-- The value of `key_line_index` after the read loop.  The C loop assigns
`key_line_index = num_lines` at every matching line (lines 83-85), so the
final value is the index of the **last** matching line, or `none` (`-1`). -/
def key_line_index : List (List Char) → Option Nat
  | [] => none
  | l :: ls =>
    match key_line_index ls with
    | some m => some (m + 1)
    | none => if startsWithKeys l then some 0 else none

/-- Result of `add_key_to_properties` plus its observable side effects. -/
structure EditorResult where
  ret : Nat
  warned : Bool
  written : Option (List (List Char))

/-- The function `add_key_to_properties` (lines 51-134).  `readOk`/`writeOk` model the two
`fopen` calls; `input` is the byte content of the properties file.  The two
`snprintf` calls into the 1024-byte `new_line` buffer keep at most 1023
characters.  `written = none` means the file was not rewritten. -/
def add_key_to_properties (api_key : List Char) (readOk writeOk : Bool)
    (input : List Char) : EditorResult :=
  if readOk then
    match key_line_index (readLines input) with
    | none =>
      if writeOk then
        ⟨0, true, some (readLines input
          ++ [(keysHeader ++ api_key).take (MAX_LINE_LENGTH - 1)])⟩
      else ⟨1, true, none⟩
    | some i =>
      if writeOk then
        ⟨0, false, some ((readLines input).set i
          (((readLines input).getD i [] ++ ',' :: api_key).take
            (MAX_LINE_LENGTH - 1)))⟩
      else ⟨1, false, none⟩
  else ⟨1, false, none⟩

/-- Lines 126-129: the rewritten file's bytes — every stored line followed by
a newline. -/
def writeLines : List (List Char) → List Char
  | [] => []
  | l :: ls => l ++ '\n' :: writeLines ls

/-- Observable outcome of running `main`. -/
structure RunResult where
  exitCode : Nat
  warned : Bool
  written : Option (List (List Char))

/-- The function `main` (lines 139-155): generate a key (the process exits with status 1
from inside `generate_api_key` when the entropy source cannot be opened),
then add it to the properties file. -/
def main_run (entOpenOk entReadOk : Bool) (buffer : List Nat)
    (readOk writeOk : Bool) (input : List Char) : RunResult :=
  match generate_api_key_run entOpenOk entReadOk buffer with
  | none => ⟨1, false, none⟩
  | some key =>
    let er := add_key_to_properties key readOk writeOk input
    ⟨if er.ret = 0 then 0 else 1, er.warned, er.written⟩

/-- A file made of the given lines, each terminated by a newline.  Used to
speak about "the lines of the input file" in claims. -/
def renderLines : List (List Char) → List Char
  | [] => []
  | l :: ls => l ++ '\n' :: renderLines ls

/-- Split a character list at every occurrence of `sep`.  Used to speak about
the comma-separated value of the keys line. -/
def splitOnChar (sep : Char) : List Char → List (List Char)
  | [] => [[]]
  | c :: cs =>
    if c = sep then [] :: splitOnChar sep cs
    else
      match splitOnChar sep cs with
      | [] => [[c]]
      | l :: ls => (c :: l) :: ls

/-- The comma-separated elements of a value string. -/
def splitComma (l : List Char) : List (List Char) := splitOnChar ',' l

/-- Index of the line that receives the new token: the recorded keys line, or
the freshly appended line at the end. -/
def mutatedIndex (ls : List (List Char)) : Nat :=
  match key_line_index ls with
  | none => ls.length
  | some i => i

theorem charset_length : charset.length = 62 := by decide

theorem keysHeader_length : keysHeader.length = 18 := by decide

theorem comma_not_mem_charset : ',' ∉ charset := by decide

theorem nl_not_mem_keysHeader : '\n' ∉ keysHeader := by decide

theorem nl_not_mem_replicate (n : Nat) (c : Char) (hc : c ≠ '\n') :
    '\n' ∉ List.replicate n c := by
  intro h
  exact hc (List.eq_of_mem_replicate h).symm

/-! ### Lemmas about `takeLine` (the `fgets` model) -/

theorem takeLine_exact (l : List Char) :
    ∀ (n : Nat) (rest : List Char), '\n' ∉ l → l.length = n →
      takeLine n (l ++ rest) = (l, rest) := by
  induction l with
  | nil =>
    intro n rest _ hlen
    simp only [List.length_nil] at hlen
    subst hlen
    simp [takeLine]
  | cons c l ih =>
    intro n rest hmem hlen
    simp only [List.length_cons] at hlen
    subst hlen
    have hc : ¬ c = '\n' := fun h => hmem (by simp [h])
    have hl : '\n' ∉ l := fun h => hmem (List.mem_cons_of_mem _ h)
    simp [takeLine, hc, ih l.length rest hl rfl]

theorem takeLine_append_nl (l : List Char) :
    ∀ (n : Nat) (rest : List Char), '\n' ∉ l → l.length < n →
      takeLine n (l ++ '\n' :: rest) = (l ++ ['\n'], rest) := by
  induction l with
  | nil =>
    intro n rest _ hlen
    match n, hlen with
    | m + 1, _ => simp [takeLine]
  | cons c l ih =>
    intro n rest hmem hlen
    match n, hlen with
    | m + 1, hlen =>
      have hc : ¬ c = '\n' := fun h => hmem (by simp [h])
      have hl : '\n' ∉ l := fun h => hmem (List.mem_cons_of_mem _ h)
      have hm : l.length < m := by
        simp only [List.length_cons] at hlen
        omega
      simp [takeLine, hc, ih m rest hl hm]

theorem takeLine_fst_length (n : Nat) :
    ∀ cs : List Char, (takeLine n cs).1.length ≤ n := by
  induction n with
  | zero => intro cs; simp [takeLine]
  | succ n ih =>
    intro cs
    cases cs with
    | nil => simp [takeLine]
    | cons c cs =>
      by_cases hc : c = '\n' <;> simp [takeLine, hc]
      exact ih cs

theorem takeLine_snd_length (n : Nat) :
    ∀ cs : List Char, (takeLine n cs).2.length ≤ cs.length := by
  induction n with
  | zero => intro cs; simp [takeLine]
  | succ n ih =>
    intro cs
    cases cs with
    | nil => simp [takeLine]
    | cons c cs =>
      by_cases hc : c = '\n' <;> simp [takeLine, hc]
      exact Nat.le_succ_of_le (ih cs)

theorem takeLine_snd_lt (n : Nat) (cs : List Char) (hn : 0 < n)
    (hcs : cs ≠ []) : (takeLine n cs).2.length < cs.length := by
  match n, hn with
  | n + 1, _ =>
    cases cs with
    | nil => exact absurd rfl hcs
    | cons c cs =>
      by_cases hc : c = '\n' <;> simp [takeLine, hc]
      exact Nat.lt_succ_of_le (takeLine_snd_length n cs)

/-! ### Lemmas about `chomp` -/

theorem chomp_concat_nl (l : List Char) : chomp (l ++ ['\n']) = l := by
  simp [chomp, List.getLast?_concat, List.dropLast_concat]

theorem chomp_of_no_nl (l : List Char) (h : '\n' ∉ l) : chomp l = l := by
  induction l using List.reverseRecOn with
  | nil => rfl
  | append_singleton xs a _ =>
    have ha : ¬ a = '\n' := fun hh => h (by simp [hh])
    simp [chomp, List.getLast?_concat, ha]

theorem chomp_length_le (l : List Char) : (chomp l).length ≤ l.length := by
  unfold chomp
  split
  · rw [List.length_dropLast]
    omega
  · exact Nat.le_refl _

/-! ### Lemmas about `readLines` -/

theorem readLinesAux_eq (f1 : Nat) :
    ∀ (f2 : Nat) (cs : List Char), cs.length ≤ f1 → cs.length ≤ f2 →
      readLinesAux f1 cs = readLinesAux f2 cs := by
  induction f1 with
  | zero =>
    intro f2 cs h1 _
    have : cs = [] := List.length_eq_zero.mp (Nat.le_zero.mp h1)
    subst this
    cases f2 <;> simp [readLinesAux]
  | succ f ih =>
    intro f2 cs h1 h2
    cases cs with
    | nil => cases f2 <;> simp [readLinesAux]
    | cons c cs =>
      cases f2 with
      | zero => simp at h2
      | succ f2 =>
        simp only [readLinesAux]
        congr 1
        have hlt : (takeLine (MAX_LINE_LENGTH - 1) (c :: cs)).2.length
            < (c :: cs).length :=
          takeLine_snd_lt _ _ (by decide) (by simp)
        exact ih f2 _ (by omega) (by omega)

theorem readLines_step (cs : List Char) (h : cs ≠ []) :
    readLines cs
      = chomp (takeLine (MAX_LINE_LENGTH - 1) cs).1
        :: readLines (takeLine (MAX_LINE_LENGTH - 1) cs).2 := by
  cases cs with
  | nil => exact absurd rfl h
  | cons c cs =>
    show readLinesAux (cs.length + 1) (c :: cs) = _
    simp only [readLinesAux]
    congr 1
    have hlt : (takeLine (MAX_LINE_LENGTH - 1) (c :: cs)).2.length
        < (c :: cs).length :=
      takeLine_snd_lt _ _ (by decide) (by simp)
    exact readLinesAux_eq cs.length _ _ (by simp at hlt; omega) (Nat.le_refl _)

theorem readLines_nil : readLines [] = [] := rfl

theorem readLines_cons_line (l rest : List Char) (hnl : '\n' ∉ l)
    (hlen : l.length ≤ MAX_LINE_LENGTH - 2) :
    readLines (l ++ '\n' :: rest) = l :: readLines rest := by
  rw [readLines_step (l ++ '\n' :: rest) (by simp)]
  rw [takeLine_append_nl l (MAX_LINE_LENGTH - 1) rest hnl (by
    unfold MAX_LINE_LENGTH at *
    omega)]
  rw [chomp_concat_nl]

theorem readLines_render (ls : List (List Char))
    (h : ∀ l ∈ ls, '\n' ∉ l ∧ l.length ≤ MAX_LINE_LENGTH - 2) :
    readLines (renderLines ls) = ls := by
  induction ls with
  | nil => rfl
  | cons l ls ih =>
    have hl := h l (List.mem_cons_self _ _)
    show readLines (l ++ '\n' :: renderLines ls) = l :: ls
    rw [readLines_cons_line l _ hl.1 hl.2,
      ih fun x hx => h x (List.mem_cons_of_mem _ hx)]

theorem readLinesAux_mem_length (fuel : Nat) :
    ∀ (cs : List Char) (l : List Char), l ∈ readLinesAux fuel cs →
      l.length ≤ MAX_LINE_LENGTH - 1 := by
  induction fuel with
  | zero => intro cs l hl; simp [readLinesAux] at hl
  | succ fuel ih =>
    intro cs l hl
    cases cs with
    | nil => simp [readLinesAux] at hl
    | cons c cs =>
      simp only [readLinesAux, List.mem_cons] at hl
      rcases hl with hl | hl
      · subst hl
        exact Nat.le_trans (chomp_length_le _) (takeLine_fst_length _ _)
      · exact ih _ l hl

theorem readLines_mem_length (cs l : List Char) (hl : l ∈ readLines cs) :
    l.length ≤ MAX_LINE_LENGTH - 1 :=
  readLinesAux_mem_length cs.length cs l hl

/-! ### Lemmas about `key_line_index` -/

theorem key_line_index_eq_none (ls : List (List Char))
    (h : key_line_index ls = none) :
    ∀ l ∈ ls, startsWithKeys l = false := by
  induction ls with
  | nil => intro l hl; simp at hl
  | cons x ls ih =>
    intro l hl
    simp only [key_line_index] at h
    cases hk : key_line_index ls with
    | some m => rw [hk] at h; simp at h
    | none =>
      rw [hk] at h
      rcases List.mem_cons.mp hl with hl | hl
      · subst hl
        by_cases hs : startsWithKeys l
        · rw [if_pos hs] at h; simp at h
        · simpa using hs
      · exact ih hk l hl

theorem key_line_index_of_forall (ls : List (List Char))
    (h : ∀ l ∈ ls, startsWithKeys l = false) :
    key_line_index ls = none := by
  induction ls with
  | nil => rfl
  | cons x ls ih =>
    simp only [key_line_index]
    rw [ih fun l hl => h l (List.mem_cons_of_mem _ hl)]
    simp [h x (List.mem_cons_self _ _)]

theorem key_line_index_spec (ls : List (List Char)) :
    ∀ i : Nat, key_line_index ls = some i →
      i < ls.length ∧ startsWithKeys (ls.getD i []) = true ∧
        ∀ j, i < j → j < ls.length → startsWithKeys (ls.getD j []) = false := by
  induction ls with
  | nil => intro i h; simp [key_line_index] at h
  | cons x ls ih =>
    intro i h
    simp only [key_line_index] at h
    cases hk : key_line_index ls with
    | some m =>
      rw [hk] at h
      have him : i = m + 1 := by
        injection h with h
        omega
      subst him
      obtain ⟨h1, h2, h3⟩ := ih m hk
      refine ⟨by simpa using h1, by simpa using h2, ?_⟩
      intro j hij hjlen
      match j, hij with
      | j + 1, hij =>
        have : startsWithKeys (ls.getD j []) = false :=
          h3 j (by omega) (by simpa using hjlen)
        simpa using this
    | none =>
      rw [hk] at h
      by_cases hs : startsWithKeys x
      · rw [if_pos hs] at h
        have hi0 : i = 0 := by
          injection h with h
          omega
        subst hi0
        refine ⟨by simp, by simpa using hs, ?_⟩
        intro j hj hjlen
        match j, hj with
        | j + 1, _ =>
          have := key_line_index_eq_none ls hk (ls.getD j [])
          by_cases hjl : j < ls.length
          · have hmem : ls.getD j [] ∈ ls := by
              rw [List.getD_eq_getElem?_getD]
              have : ls[j]? = some ls[j] := List.getElem?_eq_getElem hjl
              rw [this]
              exact List.getElem_mem hjl
            simpa using this hmem
          · simp at hjlen
            omega
      · rw [if_neg hs] at h
        simp at h

/-! ### Lemmas about `splitOnChar` -/

theorem splitOnChar_ne_nil (sep : Char) (l : List Char) :
    splitOnChar sep l ≠ [] := by
  cases l with
  | nil => simp [splitOnChar]
  | cons c cs =>
    by_cases h : c = sep <;> simp only [splitOnChar, h, if_pos, if_neg,
      ite_true, ite_false]
    · simp
    · cases hs : splitOnChar sep cs <;> simp

theorem splitOnChar_append (sep : Char) (a b : List Char) :
    splitOnChar sep (a ++ sep :: b)
      = splitOnChar sep a ++ splitOnChar sep b := by
  induction a with
  | nil => simp [splitOnChar]
  | cons c a ih =>
    by_cases h : c = sep
    · subst h
      simp [splitOnChar, ih]
    · cases hs : splitOnChar sep a with
      | nil => exact absurd hs (splitOnChar_ne_nil sep a)
      | cons l ls =>
        simp only [List.cons_append, splitOnChar, if_neg h, List.append_eq]
        rw [ih, hs]
        simp

theorem splitOnChar_of_not_mem (sep : Char) (l : List Char) (h : sep ∉ l) :
    splitOnChar sep l = [l] := by
  induction l with
  | nil => rfl
  | cons c cs ih =>
    have hc : ¬ c = sep := fun hh => h (by simp [hh])
    have hcs : sep ∉ cs := fun hh => h (List.mem_cons_of_mem _ hh)
    simp only [splitOnChar, if_neg hc, ih hcs]

/-! ### Lemmas about `startsWithKeys` -/

theorem startsWithKeys_append (x : List Char) :
    startsWithKeys (keysHeader ++ x) = true := by
  have h18 : keysHeader.length = 18 := keysHeader_length
  simp [startsWithKeys, List.take_append_eq_append_take, h18,
    List.take_of_length_le (le_of_eq h18)]

theorem keysHeader_append_take (x : List Char) :
    startsWithKeys ((keysHeader ++ x).take (MAX_LINE_LENGTH - 1)) = true := by
  rw [List.take_append_eq_append_take]
  rw [List.take_of_length_le (by rw [keysHeader_length]; decide)]
  exact startsWithKeys_append _

theorem eq_keysHeader_append_of_swk (l : List Char)
    (h : startsWithKeys l = true) : l = keysHeader ++ l.drop 18 := by
  have ht : l.take 18 = keysHeader := by
    have := h
    unfold startsWithKeys at this
    exact eq_of_beq this
  conv_lhs => rw [← List.take_append_drop 18 l]
  rw [ht]

theorem drop_keysHeader_append (x : List Char) :
    (keysHeader ++ x).drop 18 = x := by
  have h18 : keysHeader.length = 18 := keysHeader_length
  rw [← h18, List.drop_left]

/-! ### List helpers for `set`/`getD` -/

theorem getD_set_self (ls : List (List Char)) :
    ∀ (i : Nat) (a : List Char), i < ls.length →
      (ls.set i a).getD i [] = a := by
  induction ls with
  | nil => intro i a h; simp at h
  | cons x ls ih =>
    intro i a h
    cases i with
    | zero => rfl
    | succ i =>
      show (ls.set i a).getD i [] = a
      exact ih i a (by simpa using h)

theorem get?_set_of_ne (ls : List (List Char)) :
    ∀ (i j : Nat) (a : List Char), i ≠ j →
      (ls.set i a).get? j = ls.get? j := by
  induction ls with
  | nil => intro i j a _; simp
  | cons x ls ih =>
    intro i j a hij
    cases i with
    | zero =>
      cases j with
      | zero => exact absurd rfl hij
      | succ j => rfl
    | succ i =>
      cases j with
      | zero => rfl
      | succ j =>
        show (ls.set i a).get? j = ls.get? j
        exact ih i j a (by omega)

theorem getD_append_length (ls : List (List Char)) (x : List Char) :
    (ls ++ [x]).getD ls.length [] = x := by
  induction ls with
  | nil => rfl
  | cons y ls ih => simpa using ih

theorem filter_set_of_false (p : List Char → Bool) (ls : List (List Char)) :
    ∀ (i : Nat) (a : List Char), p (ls.getD i []) = false → p a = false →
      (ls.set i a).filter p = ls.filter p := by
  induction ls with
  | nil => intro i a _ _; simp
  | cons x ls ih =>
    intro i a h1 h2
    cases i with
    | zero =>
      have hx : p x = false := h1
      show (a :: ls).filter p = (x :: ls).filter p
      simp [List.filter, hx, h2]
    | succ i =>
      show (x :: ls.set i a).filter p = (x :: ls).filter p
      simp only [List.filter]
      rw [ih i a h1 h2]

theorem charset_getD_mem (n : Nat) :
    charset.getD (n % charset.length) 'A' ∈ charset := by
  have h : n % charset.length < charset.length :=
    Nat.mod_lt _ (by rw [charset_length]; omega)
  rw [List.getD_eq_getElem?_getD, List.getElem?_eq_getElem h]
  exact List.getElem_mem h

theorem comma_not_mem_token (buffer : List Nat) :
    ',' ∉ generate_api_key buffer := by
  intro h
  simp only [generate_api_key, List.mem_map] at h
  obtain ⟨b, _, hbb⟩ := h
  exact comma_not_mem_charset (hbb ▸ charset_getD_mem b)

theorem getD_mem_of_lt (ls : List (List Char)) (i : Nat) (h : i < ls.length) :
    ls.getD i [] ∈ ls := by
  rw [List.getD_eq_getElem?_getD, List.getElem?_eq_getElem h]
  exact List.getElem_mem h

theorem generate_length (buffer : List Nat) :
    (generate_api_key buffer).length = buffer.length := by
  simp [generate_api_key]

/-! ### Claim C3 -/

/-- C3: when the entropy source yields 32 bytes, the generated token has
length exactly 32, its i-th character is the character of the 62-symbol
alphabet at index `b_i mod 62`, and hence every character of the token lies
in the alphabet. -/
theorem c3_token_shape (buffer : List Nat) (hb : buffer.length = KEY_LENGTH) :
    (generate_api_key buffer).length = KEY_LENGTH ∧
    (∀ i, i < KEY_LENGTH →
      (generate_api_key buffer).get? i
        = (buffer.get? i).map fun b => charset.getD (b % 62) 'A') ∧
    ∀ c ∈ generate_api_key buffer, c ∈ charset := by
  refine ⟨by simp [generate_api_key, hb], ?_, ?_⟩
  · intro i _
    simp [generate_api_key, List.get?_map, charset_length]
  · intro c hc
    simp only [generate_api_key, List.mem_map] at hc
    obtain ⟨b, _, hbb⟩ := hc
    exact hbb ▸ charset_getD_mem b

/-- Witness for C3 at the concrete byte list `0, 1, ..., 31`. -/
theorem c3_token_shape_witness :
    (generate_api_key (List.range KEY_LENGTH)).length = KEY_LENGTH ∧
    (∀ i, i < KEY_LENGTH →
      (generate_api_key (List.range KEY_LENGTH)).get? i
        = ((List.range KEY_LENGTH).get? i).map fun b => charset.getD (b % 62) 'A') ∧
    ∀ c ∈ generate_api_key (List.range KEY_LENGTH), c ∈ charset :=
  c3_token_shape (List.range KEY_LENGTH) (by decide)

/-! ### Claim C9 -/

/-- C9: when the properties file cannot be opened for reading,
`add_key_to_properties` returns 1 and the file is never rewritten; and at the
`main` level the exit status is 0 exactly when the file was rewritten. -/
theorem c9_read_abort_exit_iff (key : List Char) (buffer : List Nat)
    (eo erd wo : Bool) (input : List Char) :
    ((add_key_to_properties key false wo input).ret = 1 ∧
      (add_key_to_properties key false wo input).written = none) ∧
    ∀ ro : Bool,
      ((main_run eo erd buffer ro wo input).exitCode = 0 ↔
        (main_run eo erd buffer ro wo input).written.isSome) := by
  constructor
  · simp [add_key_to_properties]
  · intro ro
    cases eo with
    | false => simp [main_run, generate_api_key_run]
    | true =>
      cases ro with
      | false => simp [main_run, generate_api_key_run, add_key_to_properties]
      | true =>
        cases wo <;> cases hk : key_line_index (readLines input) <;>
          simp [main_run, generate_api_key_run, add_key_to_properties, hk]

/-! ### Claim C6 -/

/-- C6 (refuting evaluation): the C code checks only the `open` of
`/dev/urandom`; the return value of `read` is ignored, so a failed read of
the 32 random bytes does **not** cause a failure — with the entropy read
failed the program still produces a token from the (uninitialized) buffer
and exits with status 0, contradicting the claim. -/
theorem c6_read_failure_ignored :
    generate_api_key_run true false (List.replicate KEY_LENGTH 0)
      = some (List.replicate KEY_LENGTH 'A') ∧
    (main_run true false (List.replicate KEY_LENGTH 0) true true []).exitCode
      = 0 ∧
    (main_run true false (List.replicate KEY_LENGTH 0) true true []).written
      = some [keysHeader ++ List.replicate KEY_LENGTH 'A'] := by
  refine ⟨by decide, by decide, by decide⟩

/-! ### Claim C5 -/

/-- C5 (amended): the editor has no `LineTooLong` failure at all; instead
every stored (and written-back) line has at most 1023 characters, long
source lines having been split by `fgets`. -/
theorem c5_lines_bounded (api_key input : List Char) :
    ∃ out, (add_key_to_properties api_key true true input).written = some out ∧
      ∀ l ∈ out, l.length ≤ MAX_LINE_LENGTH - 1 := by
  cases hk : key_line_index (readLines input) with
  | none =>
    refine ⟨readLines input
        ++ [(keysHeader ++ api_key).take (MAX_LINE_LENGTH - 1)],
      by simp [add_key_to_properties, hk], ?_⟩
    intro l hl
    rcases List.mem_append.mp hl with hl | hl
    · exact readLines_mem_length input l hl
    · simp only [List.mem_singleton] at hl
      subst hl
      simp [List.length_take]
  | some i =>
    refine ⟨(readLines input).set i
        (((readLines input).getD i [] ++ ',' :: api_key).take
          (MAX_LINE_LENGTH - 1)),
      by simp [add_key_to_properties, hk], ?_⟩
    intro l hl
    rcases List.mem_or_eq_of_mem_set hl with hl | hl
    · exact readLines_mem_length input l hl
    · subst hl
      simp [List.length_take]

theorem readLines_long_block (l rest : List Char) (hnl : '\n' ∉ l)
    (hlen : l.length = MAX_LINE_LENGTH - 1) :
    readLines (l ++ rest) = l :: readLines rest := by
  rw [readLines_step (l ++ rest) (by
    intro h
    rcases List.append_eq_nil.mp h with ⟨h1, _⟩
    rw [h1] at hlen
    simp [MAX_LINE_LENGTH] at hlen)]
  rw [takeLine_exact l (MAX_LINE_LENGTH - 1) rest hnl hlen]
  rw [chomp_of_no_nl l hnl]

theorem add_key_none (api_key input : List Char)
    (hk : key_line_index (readLines input) = none) :
    add_key_to_properties api_key true true input
      = ⟨0, true, some (readLines input
          ++ [(keysHeader ++ api_key).take (MAX_LINE_LENGTH - 1)])⟩ := by
  unfold add_key_to_properties
  rw [hk]
  rfl

theorem add_key_some (api_key input : List Char) (i : Nat)
    (hk : key_line_index (readLines input) = some i) :
    add_key_to_properties api_key true true input
      = ⟨0, false, some ((readLines input).set i
          (((readLines input).getD i [] ++ ',' :: api_key).take
            (MAX_LINE_LENGTH - 1)))⟩ := by
  unfold add_key_to_properties
  rw [hk]
  rfl

theorem key_line_index_singleton_pos (l : List Char)
    (h : startsWithKeys l = true) : key_line_index [l] = some 0 := by
  simp [key_line_index, h]

/-- C5 (counterexample): a file whose single source line has 1030 characters,
more than the 1024-character maximum, is not rejected with a `LineTooLong`
error: the editor processes it (return value 0) and rewrites the file with
the line split into chunks. -/
theorem c5_no_line_too_long_cex :
    1024 < (List.replicate 1030 'c').length ∧
    (add_key_to_properties (List.replicate KEY_LENGTH 'T') true true
        (renderLines [List.replicate 1030 'c'])).ret = 0 ∧
    (add_key_to_properties (List.replicate KEY_LENGTH 'T') true true
        (renderLines [List.replicate 1030 'c'])).written
      = some [List.replicate 1023 'c', List.replicate 7 'c',
          keysHeader ++ List.replicate KEY_LENGTH 'T'] := by
  have hrl : readLines (renderLines [List.replicate 1030 'c'])
      = [List.replicate 1023 'c', List.replicate 7 'c'] := by
    show readLines (List.replicate 1030 'c' ++ '\n' :: renderLines []) = _
    have h1030 : List.replicate 1030 'c'
        = List.replicate 1023 'c' ++ List.replicate 7 'c' := by
      rw [← List.replicate_add]
    rw [h1030, List.append_assoc]
    rw [readLines_long_block _ _
      (nl_not_mem_replicate _ _ (by decide)) (by rw [List.length_replicate]; rfl)]
    rw [readLines_cons_line _ _
      (nl_not_mem_replicate _ _ (by decide))
      (by rw [List.length_replicate]; decide)]
    rfl
  have hkli : key_line_index (readLines (renderLines [List.replicate 1030 'c']))
      = none := by
    rw [hrl]
    decide
  have htake : (keysHeader ++ List.replicate KEY_LENGTH 'T').take
      (MAX_LINE_LENGTH - 1) = keysHeader ++ List.replicate KEY_LENGTH 'T' := by
    decide
  refine ⟨by rw [List.length_replicate]; omega, ?_, ?_⟩
  · rw [add_key_none _ _ hkli]
  · rw [add_key_none _ _ hkli, hrl, htake]
    rfl

/-! ### Claim C1 -/

/-- C1 (amended): when the input contains several lines with the
`api.security.keys=` prefix, the line remembered by the read phase is the
**last** such line; only it is mutated (receiving `,token` appended, through
the 1023-character `snprintf` buffer) and every other stored line — in
particular every earlier occurrence — is preserved verbatim. -/
theorem c1_last_occurrence (api_key input : List Char) (i : Nat)
    (hi : key_line_index (readLines input) = some i) :
    (add_key_to_properties api_key true true input).written
      = some ((readLines input).set i
          (((readLines input).getD i [] ++ ',' :: api_key).take
            (MAX_LINE_LENGTH - 1))) ∧
    startsWithKeys ((readLines input).getD i []) = true ∧
    (∀ j, i < j → j < (readLines input).length →
      startsWithKeys ((readLines input).getD j []) = false) ∧
    ∀ j, j ≠ i →
      ((readLines input).set i
          (((readLines input).getD i [] ++ ',' :: api_key).take
            (MAX_LINE_LENGTH - 1))).get? j = (readLines input).get? j := by
  obtain ⟨h1, h2, h3⟩ := key_line_index_spec (readLines input) i hi
  refine ⟨?_, h2, h3, ?_⟩
  · simp [add_key_to_properties, hi]
  · intro j hj
    exact get?_set_of_ne _ i j _ fun h => hj h.symm

/-- Witness for C1 on a concrete file with two keys lines: the recorded
index is 1, the second line. -/
theorem c1_last_occurrence_witness :
    (add_key_to_properties ['T'] true true
        (renderLines [keysHeader ++ ['a'], keysHeader ++ ['b']])).written
      = some ((readLines (renderLines [keysHeader ++ ['a'], keysHeader ++ ['b']])).set 1
          (((readLines (renderLines [keysHeader ++ ['a'], keysHeader ++ ['b']])).getD 1 []
            ++ ',' :: ['T']).take (MAX_LINE_LENGTH - 1))) ∧
    startsWithKeys ((readLines (renderLines [keysHeader ++ ['a'], keysHeader ++ ['b']])).getD 1 [])
      = true ∧
    (∀ j, 1 < j → j < (readLines (renderLines [keysHeader ++ ['a'], keysHeader ++ ['b']])).length →
      startsWithKeys ((readLines (renderLines [keysHeader ++ ['a'], keysHeader ++ ['b']])).getD j [])
        = false) ∧
    ∀ j, j ≠ 1 →
      ((readLines (renderLines [keysHeader ++ ['a'], keysHeader ++ ['b']])).set 1
          (((readLines (renderLines [keysHeader ++ ['a'], keysHeader ++ ['b']])).getD 1 []
            ++ ',' :: ['T']).take (MAX_LINE_LENGTH - 1))).get? j
        = (readLines (renderLines [keysHeader ++ ['a'], keysHeader ++ ['b']])).get? j :=
  c1_last_occurrence ['T'] (renderLines [keysHeader ++ ['a'], keysHeader ++ ['b']]) 1
    (by decide)

/-- C1 (counterexample): on a file with two `api.security.keys=` lines the
editor rewrites the **second** line and keeps the first verbatim, refuting the
claim that only the first occurrence is mutated and later ones are kept. -/
theorem c1_first_occurrence_cex :
    (add_key_to_properties ['T'] true true
        (renderLines [keysHeader ++ ['a'], keysHeader ++ ['b']])).written
      = some [keysHeader ++ ['a'], keysHeader ++ ['b', ',', 'T']] ∧
    keysHeader ++ ['b', ',', 'T'] ≠ keysHeader ++ ['b'] := by
  refine ⟨by decide, by decide⟩

/-! ### Claim C2 -/

/-- C2 (amended): if the mutated keys line is `api.security.keys=<v>` and the
appended result fits the 1023-character `snprintf` buffer
(`18 + |v| + 1 + |token| ≤ 1023`), then after a successful invocation that
line reads exactly `api.security.keys=<v>,token` — in particular for empty
`v` it reads `api.security.keys=,token`, with a leading comma.  Longer lines
get the appended result truncated to 1023 characters. -/
theorem c2_append_semantics (token v input : List Char) (i : Nat)
    (hi : key_line_index (readLines input) = some i)
    (hline : (readLines input).getD i [] = keysHeader ++ v)
    (hlen : 18 + v.length + 1 + token.length ≤ MAX_LINE_LENGTH - 1) :
    (add_key_to_properties token true true input).written
      = some ((readLines input).set i (keysHeader ++ v ++ ',' :: token)) := by
  simp only [add_key_to_properties, hi, if_true]
  rw [hline]
  rw [List.append_assoc]
  rw [List.take_of_length_le (by
    simp only [List.length_append, List.length_cons, keysHeader_length]
    unfold MAX_LINE_LENGTH at hlen ⊢
    omega)]

/-- Witness for C2 on a concrete file whose keys line has an empty value:
the rewritten line keeps the leading comma. -/
theorem c2_append_semantics_witness :
    (add_key_to_properties ['T'] true true (renderLines [keysHeader])).written
      = some ((readLines (renderLines [keysHeader])).set 0
          (keysHeader ++ [] ++ ',' :: ['T'])) :=
  c2_append_semantics ['T'] [] (renderLines [keysHeader]) 0 (by decide)
    (by decide) (by decide)

/-- C2 (counterexample): for a keys line whose value has 990 characters the
appended result exceeds the 1023-character `snprintf` buffer, so the token is
truncated: the rewritten line is **not** `api.security.keys=<v>,token`
although the invocation succeeds. -/
theorem c2_truncation_cex :
    (add_key_to_properties (List.replicate KEY_LENGTH 'T') true true
        (renderLines [keysHeader ++ List.replicate 990 'a'])).ret = 0 ∧
    (add_key_to_properties (List.replicate KEY_LENGTH 'T') true true
        (renderLines [keysHeader ++ List.replicate 990 'a'])).written
      ≠ some [keysHeader ++ List.replicate 990 'a'
          ++ ',' :: List.replicate KEY_LENGTH 'T'] := by
  have hnl : '\n' ∉ keysHeader ++ List.replicate 990 'a' := by
    intro h
    rcases List.mem_append.mp h with h | h
    · exact nl_not_mem_keysHeader h
    · exact nl_not_mem_replicate _ _ (by decide) h
  have hlen0 : (keysHeader ++ List.replicate 990 'a').length = 1008 := by
    rw [List.length_append, keysHeader_length, List.length_replicate]
  have hrl : readLines (renderLines [keysHeader ++ List.replicate 990 'a'])
      = [keysHeader ++ List.replicate 990 'a'] := by
    show readLines ((keysHeader ++ List.replicate 990 'a') ++ '\n' :: renderLines []) = _
    rw [readLines_cons_line _ _ hnl (by rw [hlen0]; decide)]
    rfl
  have hkli : key_line_index
      (readLines (renderLines [keysHeader ++ List.replicate 990 'a']))
      = some 0 := by
    rw [hrl]
    exact key_line_index_singleton_pos _ (startsWithKeys_append _)
  have htake15 : (',' :: List.replicate KEY_LENGTH 'T').take 15
      = ',' :: List.replicate 14 'T' := by decide
  have htrunc : ((keysHeader ++ List.replicate 990 'a')
        ++ ',' :: List.replicate KEY_LENGTH 'T').take (MAX_LINE_LENGTH - 1)
      = (keysHeader ++ List.replicate 990 'a') ++ ',' :: List.replicate 14 'T' := by
    rw [List.take_append_eq_append_take]
    rw [List.take_of_length_le (by rw [hlen0]; decide)]
    rw [hlen0]
    have h15 : MAX_LINE_LENGTH - 1 - 1008 = 15 := by decide
    rw [h15, htake15]
  constructor
  · rw [add_key_some _ _ 0 hkli]
  · rw [add_key_some _ _ 0 hkli, hrl]
    simp only [List.getD_cons_zero, List.set_cons_zero, htrunc]
    intro h
    injection h with h
    injection h with h h'
    have h3 := congrArg List.length h
    simp only [List.length_append, List.length_cons, List.length_replicate,
      keysHeader_length, KEY_LENGTH] at h3
    omega

theorem main_run_ok (erd : Bool) (buffer : List Nat) (ro wo : Bool)
    (input : List Char) :
    main_run true erd buffer ro wo input
      = ⟨if (add_key_to_properties (generate_api_key buffer) ro wo input).ret = 0
            then 0 else 1,
         (add_key_to_properties (generate_api_key buffer) ro wo input).warned,
         (add_key_to_properties (generate_api_key buffer) ro wo input).written⟩ :=
  rfl

theorem splitComma_append (a b : List Char) :
    splitComma (a ++ ',' :: b) = splitComma a ++ splitComma b :=
  splitOnChar_append ',' a b

theorem key_line_index_cons_pos (l : List Char) (ls : List (List Char))
    (h : startsWithKeys l = true) (hls : key_line_index ls = none) :
    key_line_index (l :: ls) = some 0 := by
  simp [key_line_index, hls, h]

/-! ### Claim C4 -/

/-- C4 (amended): for input files all of whose lines fit the `fgets` buffer
(at most 1022 characters before the newline), every line whose prefix is not
`api.security.keys=` appears in the output file byte-identically and in the
same relative order (stated as: the non-keys sublists of input and output
coincide); a line longer than the buffer is instead split into several
output lines. -/
theorem c4_nonkeys_lines_preserved (api_key : List Char)
    (inLines : List (List Char))
    (h : ∀ l ∈ inLines, '\n' ∉ l ∧ l.length ≤ MAX_LINE_LENGTH - 2) :
    ∃ out, (add_key_to_properties api_key true true
        (renderLines inLines)).written = some out ∧
      out.filter (fun l => ! startsWithKeys l)
        = inLines.filter (fun l => ! startsWithKeys l) := by
  have hrd : readLines (renderLines inLines) = inLines :=
    readLines_render inLines h
  cases hk : key_line_index (readLines (renderLines inLines)) with
  | none =>
    refine ⟨inLines ++ [(keysHeader ++ api_key).take (MAX_LINE_LENGTH - 1)],
      ?_, ?_⟩
    · rw [add_key_none _ _ hk, hrd]
    · rw [List.filter_append]
      have hnew : List.filter (fun l => ! startsWithKeys l)
          [(keysHeader ++ api_key).take (MAX_LINE_LENGTH - 1)] = [] := by
        simp [keysHeader_append_take]
      rw [hnew, List.append_nil]
  | some i =>
    obtain ⟨h1, h2, _⟩ := key_line_index_spec _ i hk
    rw [hrd] at h1 h2
    refine ⟨inLines.set i ((inLines.getD i [] ++ ',' :: api_key).take
        (MAX_LINE_LENGTH - 1)), ?_, ?_⟩
    · rw [add_key_some _ _ i hk, hrd]
    · apply filter_set_of_false
      · show (! startsWithKeys (inLines.getD i [])) = false
        rw [h2]
        rfl
      · have hline := eq_keysHeader_append_of_swk _ h2
        rw [hline, List.append_assoc]
        simp [keysHeader_append_take]

/-- Witness for C4 on a concrete three-line file with the keys line in the
middle: the two other lines survive unchanged, in order. -/
theorem c4_nonkeys_lines_preserved_witness :
    ∃ out, (add_key_to_properties ['T'] true true
        (renderLines [['x'], keysHeader ++ ['k'], ['y']])).written = some out ∧
      out.filter (fun l => ! startsWithKeys l)
        = [['x'], keysHeader ++ ['k'], ['y']].filter (fun l => ! startsWithKeys l) :=
  c4_nonkeys_lines_preserved ['T'] [['x'], keysHeader ++ ['k'], ['y']]
    (by decide)

/-- C4 (counterexample): a 1025-character line without the keys prefix does
not reappear as a line of the output file — `fgets` splits it into two lines
— refuting byte-preservation of non-keys lines for every input file. -/
theorem c4_long_line_cex :
    startsWithKeys (List.replicate 1025 'b') = false ∧
    (add_key_to_properties (List.replicate KEY_LENGTH 'T') true true
        (renderLines [List.replicate 1025 'b'])).ret = 0 ∧
    (add_key_to_properties (List.replicate KEY_LENGTH 'T') true true
        (renderLines [List.replicate 1025 'b'])).written
      = some [List.replicate 1023 'b', List.replicate 2 'b',
          keysHeader ++ List.replicate KEY_LENGTH 'T'] ∧
    List.replicate 1025 'b' ∉ [List.replicate 1023 'b', List.replicate 2 'b',
          keysHeader ++ List.replicate KEY_LENGTH 'T'] := by
  have hrl : readLines (renderLines [List.replicate 1025 'b'])
      = [List.replicate 1023 'b', List.replicate 2 'b'] := by
    show readLines (List.replicate 1025 'b' ++ '\n' :: renderLines []) = _
    have h1025 : List.replicate 1025 'b'
        = List.replicate 1023 'b' ++ List.replicate 2 'b' := by
      rw [← List.replicate_add]
    rw [h1025, List.append_assoc]
    rw [readLines_long_block _ _
      (nl_not_mem_replicate _ _ (by decide)) (by rw [List.length_replicate]; rfl)]
    rw [readLines_cons_line _ _
      (nl_not_mem_replicate _ _ (by decide))
      (by rw [List.length_replicate]; decide)]
    rfl
  have hkli : key_line_index (readLines (renderLines [List.replicate 1025 'b']))
      = none := by
    rw [hrl]
    decide
  have htake : (keysHeader ++ List.replicate KEY_LENGTH 'T').take
      (MAX_LINE_LENGTH - 1) = keysHeader ++ List.replicate KEY_LENGTH 'T' := by
    decide
  refine ⟨by decide, ?_, ?_, ?_⟩
  · rw [add_key_none _ _ hkli]
  · rw [add_key_none _ _ hkli, hrl, htake]
    rfl
  · intro hmem
    rcases List.mem_cons.mp hmem with hh | hmem
    · have := congrArg List.length hh
      simp only [List.length_replicate] at this
      omega
    rcases List.mem_cons.mp hmem with hh | hmem
    · have := congrArg List.length hh
      simp only [List.length_replicate] at this
      omega
    rcases List.mem_cons.mp hmem with hh | hmem
    · have := congrArg List.length hh
      simp only [List.length_replicate, List.length_append,
        keysHeader_length, KEY_LENGTH] at this
      omega
    · simp at hmem

/-! ### Claim C7 -/

/-- C7 (amended): for every input file whose lines all fit the `fgets` buffer
(at most 1022 characters) and none of which has the `api.security.keys=`
prefix, the run prints the warning on the error channel, exits with status 0,
and the last line of the output file is exactly `api.security.keys=<token>`. -/
theorem c7_creation_semantics (buffer : List Nat) (inLines : List (List Char))
    (hb : buffer.length = KEY_LENGTH)
    (h : ∀ l ∈ inLines, '\n' ∉ l ∧ l.length ≤ MAX_LINE_LENGTH - 2 ∧
      startsWithKeys l = false) :
    (main_run true true buffer true true (renderLines inLines)).warned = true ∧
    (main_run true true buffer true true (renderLines inLines)).exitCode = 0 ∧
    (main_run true true buffer true true (renderLines inLines)).written
      = some (inLines ++ [keysHeader ++ generate_api_key buffer]) ∧
    (inLines ++ [keysHeader ++ generate_api_key buffer]).getLast?
      = some (keysHeader ++ generate_api_key buffer) := by
  have hrd : readLines (renderLines inLines) = inLines :=
    readLines_render inLines fun l hl => ⟨(h l hl).1, (h l hl).2.1⟩
  have hkli : key_line_index (readLines (renderLines inLines)) = none := by
    rw [hrd]
    exact key_line_index_of_forall _ fun l hl => (h l hl).2.2
  have hklen : (generate_api_key buffer).length = KEY_LENGTH := by
    rw [generate_length, hb]
  have htake : (keysHeader ++ generate_api_key buffer).take (MAX_LINE_LENGTH - 1)
      = keysHeader ++ generate_api_key buffer :=
    List.take_of_length_le (by
      rw [List.length_append, keysHeader_length, hklen]
      decide)
  have hadd := add_key_none (generate_api_key buffer) (renderLines inLines) hkli
  rw [main_run_ok, hadd, hrd, htake]
  exact ⟨rfl, rfl, rfl, List.getLast?_concat _⟩

/-- Witness for C7 on the concrete one-line file `x` with bytes 0..31. -/
theorem c7_creation_semantics_witness :
    (main_run true true (List.range KEY_LENGTH) true true
        (renderLines [['x']])).warned = true ∧
    (main_run true true (List.range KEY_LENGTH) true true
        (renderLines [['x']])).exitCode = 0 ∧
    (main_run true true (List.range KEY_LENGTH) true true
        (renderLines [['x']])).written
      = some ([['x']] ++ [keysHeader ++ generate_api_key (List.range KEY_LENGTH)]) ∧
    ([['x']] ++ [keysHeader ++ generate_api_key (List.range KEY_LENGTH)]).getLast?
      = some (keysHeader ++ generate_api_key (List.range KEY_LENGTH)) :=
  c7_creation_semantics (List.range KEY_LENGTH) [['x']] (by decide) (by decide)

/-- C7 (counterexample): a file whose single 1041-character line does not
start with `api.security.keys=`, but whose second `fgets` chunk does.  The
run then mutates that chunk: no warning is printed and the last output line
is not `api.security.keys=<token>`, refuting the claim for such files. -/
theorem c7_phantom_keys_cex :
    startsWithKeys (List.replicate 1023 'a' ++ keysHeader) = false ∧
    (main_run true true (List.replicate KEY_LENGTH 19) true true
        (renderLines [List.replicate 1023 'a' ++ keysHeader])).warned = false ∧
    (main_run true true (List.replicate KEY_LENGTH 19) true true
        (renderLines [List.replicate 1023 'a' ++ keysHeader])).written
      = some [List.replicate 1023 'a',
          keysHeader ++ ',' :: List.replicate KEY_LENGTH 'T'] ∧
    (keysHeader ++ ',' :: List.replicate KEY_LENGTH 'T')
      ≠ keysHeader ++ List.replicate KEY_LENGTH 'T' := by
  have hgen : generate_api_key (List.replicate KEY_LENGTH 19)
      = List.replicate KEY_LENGTH 'T' := by decide
  have hrl : readLines (renderLines [List.replicate 1023 'a' ++ keysHeader])
      = [List.replicate 1023 'a', keysHeader] := by
    show readLines ((List.replicate 1023 'a' ++ keysHeader)
      ++ '\n' :: renderLines []) = _
    rw [List.append_assoc]
    rw [readLines_long_block _ _ (nl_not_mem_replicate _ _ (by decide))
      (by rw [List.length_replicate]; rfl)]
    rw [readLines_cons_line _ _ nl_not_mem_keysHeader
      (by rw [keysHeader_length]; decide)]
    rfl
  have hkli : key_line_index
      (readLines (renderLines [List.replicate 1023 'a' ++ keysHeader]))
      = some 1 := by
    rw [hrl]
    decide
  have htake : (keysHeader ++ ',' :: List.replicate KEY_LENGTH 'T').take
      (MAX_LINE_LENGTH - 1)
      = keysHeader ++ ',' :: List.replicate KEY_LENGTH 'T' := by decide
  have hadd := add_key_some (List.replicate KEY_LENGTH 'T')
    (renderLines [List.replicate 1023 'a' ++ keysHeader]) 1 hkli
  rw [hrl] at hadd
  refine ⟨by decide, ?_, ?_, by decide⟩
  · rw [main_run_ok, hgen, hadd]
  · rw [main_run_ok, hgen, hadd]
    show some _ = _
    rw [List.getD_cons_succ, List.getD_cons_zero, htake]
    rfl

/-! ### Claim C8 -/

/-- C8 (amended): on successful completion the generated token is the last
comma-separated element of the mutated (or created) keys line; it appears
there exactly once provided it was not already an element of that line's
value and the appended line fits the 1023-character `snprintf` buffer.
Without those provisos the token can appear twice (no deduplication) or be
truncated. -/
theorem c8_last_element (buffer : List Nat) (input : List Char)
    (hb : buffer.length = KEY_LENGTH)
    (hsafe : ∀ l ∈ readLines input, startsWithKeys l = true →
      generate_api_key buffer ∉ splitComma (l.drop 18) ∧
        l.length + 1 + KEY_LENGTH ≤ MAX_LINE_LENGTH - 1) :
    ∃ out, (add_key_to_properties (generate_api_key buffer) true true
        input).written = some out ∧
      startsWithKeys (out.getD (mutatedIndex (readLines input)) []) = true ∧
      (splitComma ((out.getD (mutatedIndex (readLines input)) []).drop 18)).getLast?
        = some (generate_api_key buffer) ∧
      (splitComma ((out.getD (mutatedIndex (readLines input)) []).drop 18)).count
        (generate_api_key buffer) = 1 := by
  have hklen : (generate_api_key buffer).length = KEY_LENGTH := by
    rw [generate_length, hb]
  have hsplitT : splitComma (generate_api_key buffer)
      = [generate_api_key buffer] :=
    splitOnChar_of_not_mem ',' _ (comma_not_mem_token buffer)
  cases hk : key_line_index (readLines input) with
  | none =>
    have hmi : mutatedIndex (readLines input) = (readLines input).length := by
      unfold mutatedIndex
      rw [hk]
    have htake : (keysHeader ++ generate_api_key buffer).take
        (MAX_LINE_LENGTH - 1) = keysHeader ++ generate_api_key buffer :=
      List.take_of_length_le (by
        rw [List.length_append, keysHeader_length, hklen]
        decide)
    refine ⟨readLines input ++ [keysHeader ++ generate_api_key buffer],
      ?_, ?_, ?_, ?_⟩
    · rw [add_key_none _ _ hk, htake]
    · rw [hmi, getD_append_length]
      exact startsWithKeys_append _
    · rw [hmi, getD_append_length, drop_keysHeader_append, hsplitT]
      rfl
    · rw [hmi, getD_append_length, drop_keysHeader_append, hsplitT]
      simp
  | some i =>
    obtain ⟨h1, h2, _⟩ := key_line_index_spec _ i hk
    obtain ⟨hnotmem, hlen⟩ := hsafe _ (getD_mem_of_lt _ i h1) h2
    have hmi : mutatedIndex (readLines input) = i := by
      unfold mutatedIndex
      rw [hk]
    have hline := eq_keysHeader_append_of_swk _ h2
    have htake : (((readLines input).getD i [])
          ++ ',' :: generate_api_key buffer).take (MAX_LINE_LENGTH - 1)
        = ((readLines input).getD i []) ++ ',' :: generate_api_key buffer :=
      List.take_of_length_le (by
        rw [List.length_append, List.length_cons, hklen]
        unfold MAX_LINE_LENGTH KEY_LENGTH at hlen ⊢
        omega)
    refine ⟨(readLines input).set i
        (((readLines input).getD i []) ++ ',' :: generate_api_key buffer),
      ?_, ?_, ?_, ?_⟩
    · rw [add_key_some _ _ i hk, htake]
    · rw [hmi, getD_set_self _ i _ h1]
      rw [hline, List.append_assoc]
      exact startsWithKeys_append _
    · rw [hmi, getD_set_self _ i _ h1]
      rw [hline, List.append_assoc, drop_keysHeader_append]
      rw [splitComma_append, hsplitT]
      exact List.getLast?_concat _
    · rw [hmi, getD_set_self _ i _ h1]
      rw [hline, List.append_assoc, drop_keysHeader_append]
      rw [splitComma_append, hsplitT]
      rw [List.count_append]
      rw [List.count_eq_zero.mpr hnotmem]
      simp

/-- Witness for C8 on the concrete file `api.security.keys=a` with bytes all
zero (token `AAAA…`). -/
theorem c8_last_element_witness :
    ∃ out, (add_key_to_properties (generate_api_key (List.replicate KEY_LENGTH 0))
        true true (renderLines [keysHeader ++ ['a']])).written = some out ∧
      startsWithKeys (out.getD (mutatedIndex (readLines
        (renderLines [keysHeader ++ ['a']]))) []) = true ∧
      (splitComma ((out.getD (mutatedIndex (readLines
          (renderLines [keysHeader ++ ['a']]))) []).drop 18)).getLast?
        = some (generate_api_key (List.replicate KEY_LENGTH 0)) ∧
      (splitComma ((out.getD (mutatedIndex (readLines
          (renderLines [keysHeader ++ ['a']]))) []).drop 18)).count
        (generate_api_key (List.replicate KEY_LENGTH 0)) = 1 :=
  c8_last_element (List.replicate KEY_LENGTH 0)
    (renderLines [keysHeader ++ ['a']]) (by decide) (by decide)

/-- C8 (counterexample): the token `TTTT…` (generable from bytes all 19) may
already be present on the keys line; the editor appends it anyway, so it then
appears twice among the comma-separated elements — "exactly once" fails. -/
theorem c8_duplicate_token_cex :
    generate_api_key (List.replicate KEY_LENGTH 19)
      = List.replicate KEY_LENGTH 'T' ∧
    (add_key_to_properties (List.replicate KEY_LENGTH 'T') true true
        (renderLines [keysHeader ++ List.replicate KEY_LENGTH 'T'])).written
      = some [(keysHeader ++ List.replicate KEY_LENGTH 'T')
          ++ ',' :: List.replicate KEY_LENGTH 'T'] ∧
    (splitComma (((keysHeader ++ List.replicate KEY_LENGTH 'T')
        ++ ',' :: List.replicate KEY_LENGTH 'T').drop 18)).count
      (List.replicate KEY_LENGTH 'T') = 2 := by
  refine ⟨by decide, by decide, by decide⟩

/-! ### Claim C10 -/

/-- C10 (amended): only a single trailing `\n` is stripped from each input
line, so a carriage return from a CRLF ending stays part of the stored line:
for a keys line ending `<v>\r\n` whose appended result fits the snprintf
buffer the rewritten line is `api.security.keys=<v>\r,<token>`, written back
followed by `\n`; and every non-keys CRLF-terminated line is stored with its
`\r` kept.  (At the buffer limit the append is truncated instead — see the
counterexample.) -/
theorem c10_cr_preserved (v token rest l rest2 : List Char)
    (hv : '\n' ∉ v) (hvlen : v.length ≤ 1003)
    (hlen : 18 + v.length + 2 + token.length ≤ MAX_LINE_LENGTH - 1)
    (hrest : ∀ x ∈ readLines rest, startsWithKeys x = false)
    (hl : '\n' ∉ l) (hllen : l.length ≤ 1021) :
    (add_key_to_properties token true true
        (keysHeader ++ v ++ '\r' :: '\n' :: rest)).written
      = some ((keysHeader ++ v ++ '\r' :: ',' :: token) :: readLines rest) ∧
    writeLines ((keysHeader ++ v ++ '\r' :: ',' :: token) :: readLines rest)
      = (keysHeader ++ v ++ '\r' :: ',' :: token)
        ++ '\n' :: writeLines (readLines rest) ∧
    readLines (l ++ '\r' :: '\n' :: rest2) = (l ++ ['\r']) :: readLines rest2 := by
  have hnl0 : '\n' ∉ keysHeader ++ (v ++ ['\r']) := by
    intro h
    rcases List.mem_append.mp h with h | h
    · exact nl_not_mem_keysHeader h
    · rcases List.mem_append.mp h with h | h
      · exact hv h
      · simp at h
  have hlen0 : (keysHeader ++ (v ++ ['\r'])).length = 18 + v.length + 1 := by
    simp only [List.length_append, keysHeader_length, List.length_cons,
      List.length_nil]
    omega
  have heq : keysHeader ++ v ++ '\r' :: '\n' :: rest
      = (keysHeader ++ (v ++ ['\r'])) ++ '\n' :: rest := by
    simp
  have hrl : readLines (keysHeader ++ v ++ '\r' :: '\n' :: rest)
      = (keysHeader ++ (v ++ ['\r'])) :: readLines rest := by
    rw [heq]
    exact readLines_cons_line _ _ hnl0 (by
      rw [hlen0]
      unfold MAX_LINE_LENGTH
      omega)
  have hkli : key_line_index
      (readLines (keysHeader ++ v ++ '\r' :: '\n' :: rest)) = some 0 := by
    rw [hrl]
    exact key_line_index_cons_pos _ _ (startsWithKeys_append _)
      (key_line_index_of_forall _ hrest)
  have hadd := add_key_some token (keysHeader ++ v ++ '\r' :: '\n' :: rest) 0 hkli
  rw [hrl] at hadd
  have htake : ((keysHeader ++ (v ++ ['\r'])) ++ ',' :: token).take
      (MAX_LINE_LENGTH - 1)
      = (keysHeader ++ (v ++ ['\r'])) ++ ',' :: token :=
    List.take_of_length_le (by
      rw [List.length_append, hlen0, List.length_cons]
      unfold MAX_LINE_LENGTH at hlen ⊢
      omega)
  refine ⟨?_, rfl, ?_⟩
  · rw [hadd]
    show some _ = _
    rw [List.getD_cons_zero, List.set_cons_zero, htake]
    simp [List.append_assoc]
  · have heq2 : l ++ '\r' :: '\n' :: rest2 = (l ++ ['\r']) ++ '\n' :: rest2 := by
      simp
    rw [heq2]
    exact readLines_cons_line _ _
      (by
        intro h
        rcases List.mem_append.mp h with h | h
        · exact hl h
        · simp at h)
      (by
        simp only [List.length_append, List.length_cons, List.length_nil]
        unfold MAX_LINE_LENGTH
        omega)

/-- Witness for C10 on the concrete CRLF file `api.security.keys=x\r\n` with
token `T`, and non-keys line `y\r\n`. -/
theorem c10_cr_preserved_witness :
    (add_key_to_properties ['T'] true true
        (keysHeader ++ ['x'] ++ '\r' :: '\n' :: [])).written
      = some ((keysHeader ++ ['x'] ++ '\r' :: ',' :: ['T']) :: readLines []) ∧
    writeLines ((keysHeader ++ ['x'] ++ '\r' :: ',' :: ['T']) :: readLines [])
      = (keysHeader ++ ['x'] ++ '\r' :: ',' :: ['T'])
        ++ '\n' :: writeLines (readLines []) ∧
    readLines (['y'] ++ '\r' :: '\n' :: []) = (['y'] ++ ['\r']) :: readLines [] :=
  c10_cr_preserved ['x'] ['T'] [] ['y'] [] (by decide) (by decide) (by decide)
    (by decide) (by decide) (by decide)

/-- C10 (counterexample): a CRLF keys line whose stored content already fills
the 1023-character buffer (value of 1004 characters) is not rewritten to
`api.security.keys=<v>\r,<token>`: the snprintf append is truncated back to
the original 1023 characters, losing the token entirely. -/
theorem c10_cr_truncation_cex :
    (add_key_to_properties (List.replicate KEY_LENGTH 'T') true true
        (keysHeader ++ List.replicate 1004 'a' ++ ['\r', '\n'])).written
      = some [keysHeader ++ (List.replicate 1004 'a' ++ ['\r']), []] ∧
    keysHeader ++ (List.replicate 1004 'a' ++ ['\r'])
      ≠ keysHeader ++ List.replicate 1004 'a'
        ++ '\r' :: ',' :: List.replicate KEY_LENGTH 'T' := by
  have hnl0 : '\n' ∉ keysHeader ++ (List.replicate 1004 'a' ++ ['\r']) := by
    intro h
    rcases List.mem_append.mp h with h | h
    · exact nl_not_mem_keysHeader h
    · rcases List.mem_append.mp h with h | h
      · exact nl_not_mem_replicate _ _ (by decide) h
      · simp at h
  have hlen0 : (keysHeader ++ (List.replicate 1004 'a' ++ ['\r'])).length
      = 1023 := by
    simp only [List.length_append, keysHeader_length, List.length_replicate,
      List.length_cons, List.length_nil]
  have heq : keysHeader ++ List.replicate 1004 'a' ++ ['\r', '\n']
      = (keysHeader ++ (List.replicate 1004 'a' ++ ['\r'])) ++ '\n' :: [] := by
    simp
  have hnlread : readLines (('\n' : Char) :: []) = [[]] := by decide
  have hrl : readLines (keysHeader ++ List.replicate 1004 'a' ++ ['\r', '\n'])
      = [keysHeader ++ (List.replicate 1004 'a' ++ ['\r']), []] := by
    rw [heq]
    rw [readLines_long_block _ _ hnl0 (by rw [hlen0]; rfl)]
    rw [hnlread]
  have hkli : key_line_index
      (readLines (keysHeader ++ List.replicate 1004 'a' ++ ['\r', '\n']))
      = some 0 := by
    rw [hrl]
    exact key_line_index_cons_pos _ _ (startsWithKeys_append _) (by decide)
  have hadd := add_key_some (List.replicate KEY_LENGTH 'T')
    (keysHeader ++ List.replicate 1004 'a' ++ ['\r', '\n']) 0 hkli
  rw [hrl] at hadd
  have htake : ((keysHeader ++ (List.replicate 1004 'a' ++ ['\r']))
        ++ ',' :: List.replicate KEY_LENGTH 'T').take (MAX_LINE_LENGTH - 1)
      = keysHeader ++ (List.replicate 1004 'a' ++ ['\r']) := by
    rw [List.take_append_eq_append_take]
    rw [List.take_of_length_le (by rw [hlen0]; decide)]
    rw [hlen0]
    have h0 : MAX_LINE_LENGTH - 1 - 1023 = 0 := by decide
    rw [h0, List.take_zero, List.append_nil]
  constructor
  · rw [hadd]
    show some _ = _
    rw [List.getD_cons_zero, List.set_cons_zero, htake]
  · intro h
    have h3 := congrArg List.length h
    simp only [List.length_append, List.length_cons, List.length_nil,
      List.length_replicate, keysHeader_length, KEY_LENGTH] at h3
    omega
